import Mathlib

/-!
Verification of the HackRx retrieval-and-decision pipeline (`index.js`, plus the
simplified Next.js handlers).  The JavaScript source is shallowly embedded:

* JS strings are modelled as `List Char`; labels that are only carried around
  (source names, decision strings, error messages) use Lean `String`.
* JS numbers in the vector/score path are modelled as real numbers `ℝ`
  (floating-point rounding is out of scope); `Math.sqrt` is `Real.sqrt`.
* The external capabilities (document fetching, the embedding provider, the
  chat model, `JSON.parse`) appear only through their outcomes, which are
  passed to the embedded functions as arguments, exactly where the source
  consumes them.
* The potentially non-terminating `while` loop of `chunkText` is embedded with
  explicit fuel; `none` marks fuel exhaustion.  Termination under the
  configuration actually used is proved, not assumed.
-/

/-! ## Characters, whitespace and substrings -/

/-- Lowercasing of one character, as `String.prototype.toLowerCase` acts on the
ASCII range (the only range the keyword heuristic ever compares against). -/
def lowerChar (c : Char) : Char :=
  if 'A' ≤ c && c ≤ 'Z' then Char.ofNat (c.toNat + 32) else c

/-- Lowercasing of a whole string, `t.text.toLowerCase()`. -/
def lowerStr (s : List Char) : List Char := s.map lowerChar

/-- Whitespace test backing the `/\s+/` regex class (ASCII part). -/
def isWs (c : Char) : Bool :=
  c = ' ' || c = '\n' || c = '\t' || c = '\r' || c = '\x0b' || c = '\x0c'

/-- Collapse every maximal whitespace run to one space:
`c.replace(/\s+/g, " ")`. -/
def collapseWs : List Char → List Char
  | [] => []
  | [c] => if isWs c then [' '] else [c]
  | c1 :: c2 :: rest =>
    if isWs c1 && isWs c2 then collapseWs (c2 :: rest)
    else (if isWs c1 then ' ' else c1) :: collapseWs (c2 :: rest)

/-- Trim of leading and trailing whitespace, `.trim()`. -/
def trimWs (s : List Char) : List Char :=
  ((s.dropWhile (fun c => isWs c)).reverse.dropWhile (fun c => isWs c)).reverse

/-- Whitespace normalisation applied to every chunk:
`c.replace(/\s+/g, " ").trim()`. -/
def normalizeWs (s : List Char) : List Char := trimWs (collapseWs s)

/-- Decides whether `k` starts the string `s` (helper for substring search). -/
def isPrefixList : List Char → List Char → Bool
  | [], _ => true
  | _ :: _, [] => false
  | a :: as, b :: bs => a == b && isPrefixList as bs

/-- Substring test, `String.prototype.includes(k)`: does `k` occur inside `s`
as a contiguous run? -/
def containsSub (k : List Char) : List Char → Bool
  | [] => isPrefixList k []
  | c :: t => isPrefixList k (c :: t) || containsSub k t

/-- Occurrence of `k` inside `s`, stated the way the spec reads: some split of
`s` exhibits `k` as a contiguous block. -/
def occursIn (k s : List Char) : Prop := ∃ pre post, s = pre ++ (k ++ post)

theorem isPrefixList_iff (k : List Char) :
    ∀ s : List Char, isPrefixList k s = true ↔ ∃ rest, s = k ++ rest := by
  induction k with
  | nil => intro s; simp [isPrefixList]
  | cons a as ih =>
    intro s
    cases s with
    | nil =>
      simp only [isPrefixList, List.cons_append]
      constructor
      · intro h; cases h
      · rintro ⟨rest, h⟩; cases h
    | cons b bs =>
      simp only [isPrefixList, Bool.and_eq_true, beq_iff_eq, ih bs,
        List.cons_append, List.cons.injEq]
      constructor
      · rintro ⟨rfl, rest, rfl⟩; exact ⟨rest, rfl, rfl⟩
      · rintro ⟨rest, rfl, rfl⟩; exact ⟨rfl, rest, rfl⟩

theorem containsSub_iff (k : List Char) :
    ∀ s : List Char, containsSub k s = true ↔ occursIn k s := by
  unfold occursIn
  intro s
  induction s with
  | nil =>
    simp only [containsSub, isPrefixList_iff]
    constructor
    · rintro ⟨rest, h⟩; exact ⟨[], rest, h⟩
    · rintro ⟨pre, post, h⟩
      have h' : pre = [] ∧ k ++ post = [] := List.append_eq_nil.mp h.symm
      have h2 : k = [] ∧ post = [] := List.append_eq_nil.mp h'.2
      exact ⟨post, by simp [h2.1, h2.2]⟩
  | cons c t ih =>
    simp only [containsSub, Bool.or_eq_true, isPrefixList_iff, ih]
    constructor
    · rintro (⟨rest, h⟩ | ⟨pre, post, h⟩)
      · exact ⟨[], rest, by simpa using h⟩
      · exact ⟨c :: pre, post, by simp [h]⟩
    · rintro ⟨pre, post, h⟩
      cases pre with
      | nil => exact Or.inl ⟨post, by simpa using h⟩
      | cons x xs =>
        right
        simp only [List.cons_append, List.cons.injEq] at h
        exact ⟨xs, post, h.2⟩

instance (k s : List Char) : Decidable (occursIn k s) :=
  decidable_of_iff (containsSub k s = true) (containsSub_iff k s)

/-! ## Chunker (`chunkText`) -/

/-- Fuelled embedding of the `while (i < text.length)` loop of `chunkText`.
Each pass emits `text.slice(i, i + chunkSize)` and advances `i` by
`chunkSize - overlap` (truncated subtraction: a step of `0` models the loop
never advancing, hence running out of any fuel, as the JS loop would run
forever).  `none` means the fuel was exhausted. -/
def chunkTextFuel : Nat → List Char → Nat → Nat → Nat → Option (List (List Char))
  | 0, _, _, _, _ => none
  | fuel + 1, text, chunkSize, overlap, i =>
    if i < text.length then
      match chunkTextFuel fuel text chunkSize overlap (i + (chunkSize - overlap)) with
      | none => none
      | some rest => some ((text.drop i).take chunkSize :: rest)
    else some []

/-- The function `chunkText(text, chunkSize, overlap)` (source defaults are
`chunkSize = 800`, `overlap = 100`; the handler passes `900, 150`).  The fuel
`text.length + 1` dominates the loop's iteration count whenever the step is
positive, which is proved below rather than assumed. -/
def chunkText (text : List Char) (chunkSize overlap : Nat) : Option (List (List Char)) :=
  chunkTextFuel (text.length + 1) text chunkSize overlap 0

/-- Total wrapper used when embedding call sites that are proved to terminate;
defaults to `[]` on fuel exhaustion. -/
def chunkTextD (text : List Char) (chunkSize overlap : Nat) : List (List Char) :=
  (chunkText text chunkSize overlap).getD []

/-! ## Cosine similarity (`cosine`) -/

/-- Dot product as computed by `a.reduce((s, v, i) => s + v * (b[i] ?? 0), 0)`:
the iteration runs over `a`, and a missing entry of `b` contributes `0`. -/
def dotJS : List ℝ → List ℝ → ℝ
  | [], _ => 0
  | a :: as, [] => a * 0 + dotJS as []
  | a :: as, b :: bs => a * b + dotJS as bs

/-- Sum of squares, `v.reduce((s, v) => s + v * v, 0)`. -/
def sumSq : List ℝ → ℝ
  | [] => 0
  | v :: rest => v * v + sumSq rest

/-- Magnitude `Math.sqrt(sumSq v)` of a vector. -/
noncomputable def magJS (v : List ℝ) : ℝ := Real.sqrt (sumSq v)

open Classical in
/-- The function `cosine(a, b)`: `0` when either magnitude is `0`, otherwise
the dot product over the product of magnitudes. -/
noncomputable def cosine (a b : List ℝ) : ℝ :=
  if magJS a = 0 ∨ magJS b = 0 then 0 else dotJS a b / (magJS a * magJS b)

/-! ## Orchestrator: chunk assembly and the no-content gate -/

/-- Outcome of `fetchAndExtract` for one document: the extracted text and the
source label (an extraction failure yields empty text). -/
structure ExtractedDoc where
  text : List Char
  source : String

/-- One entry of the in-memory chunk store, as pushed by the handler:
normalised text plus provenance. -/
structure Chunk where
  text : List Char
  source : String
  doc_index : Nat
  chunk_index : Nat
deriving DecidableEq

/-- Window size the handler passes to `chunkText` (`chunkText(txt, 900, 150)`). -/
def handlerWindowSize : Nat := 900

/-- Overlap the handler passes to `chunkText`. -/
def handlerOverlap : Nat := 150

/-- Step 2 of the handler: for each document, append `"\n"` to its text
(`(doc.text || "") + "\n"`), window it with `chunkText(txt, 900, 150)`, and
wrap every window with normalised text and provenance metadata. -/
def assembleChunks (docs : List ExtractedDoc) : List Chunk :=
  (docs.mapIdx fun di doc =>
    (chunkTextD (doc.text ++ ['\n']) handlerWindowSize handlerOverlap).mapIdx fun idx c =>
      { text := normalizeWs c, source := doc.source, doc_index := di, chunk_index := idx }).flatten

/-- The no-content gate (`if (chunks.length === 0) return 400 ...`) followed by
the inputs of the first embedding-provider call: on success the handler calls
`embedTexts(chunks.map(c => c.text))`, so the `ok` payload is exactly what is
sent to the provider. -/
def noContentCheck (chunks : List Chunk) : Except String (List (List Char)) :=
  if chunks.length = 0 then Except.error "No extractable text found in documents."
  else Except.ok (chunks.map fun c => c.text)

/-! ## Similarity ranker (top-K selection) -/

/-- A chunk with its embedding attached (step 3 of the handler). -/
structure EmbChunk where
  text : List Char
  source : String
  doc_index : Nat
  chunk_index : Nat
  embedding : List ℝ

/-- A chunk with its cosine score attached,
`{ ...c, score: cosine(qEmb, c.embedding) }`. -/
structure ScoredChunk where
  text : List Char
  source : String
  doc_index : Nat
  chunk_index : Nat
  embedding : List ℝ
  score : ℝ

/-- Attachment of the provider's embeddings to the chunks in order
(`chunks[i].embedding = embeddings[i]`). -/
def attachEmbeddings (chunks : List Chunk) (embeddings : List (List ℝ)) : List EmbChunk :=
  List.zipWith (fun c e =>
    { text := c.text, source := c.source, doc_index := c.doc_index,
      chunk_index := c.chunk_index, embedding := e }) chunks embeddings

/-- Scoring pass `chunks.map(c => ({ ...c, score: cosine(qEmb, c.embedding) }))`. -/
noncomputable def scoreChunks (q : List ℝ) (chunks : List EmbChunk) : List ScoredChunk :=
  chunks.map fun c =>
    { text := c.text, source := c.source, doc_index := c.doc_index,
      chunk_index := c.chunk_index, embedding := c.embedding,
      score := cosine q c.embedding }

/-- Comparator relation of `scored.sort((a, b) => b.score - a.score)`:
`a` may come before `b` when `a`'s score is at least `b`'s. -/
def scoreGe (a b : ScoredChunk) : Prop := b.score ≤ a.score

noncomputable instance : DecidableRel scoreGe :=
  fun a b => inferInstanceAs (Decidable (b.score ≤ a.score))

/-- The sort `scored.sort((a, b) => b.score - a.score)`.  ECMAScript sorting is
stable, and a stable sort under a total comparator has a unique output, so it
is embedded as the stable `List.insertionSort` under the same comparator. -/
noncomputable def sortScoredDesc (l : List ScoredChunk) : List ScoredChunk :=
  List.insertionSort scoreGe l

/-- Configured K of the ranker (`const K = Math.min(6, chunks.length)`). -/
def configuredK : Nat := 6

/-- Steps 5 of the handler: score every chunk, sort descending and keep the
first `min(6, chunks.length)` entries (`scored.slice(0, K)`). -/
noncomputable def rankTopK (q : List ℝ) (chunks : List EmbChunk) : List ScoredChunk :=
  (sortScoredDesc (scoreChunks q chunks)).take (min configuredK chunks.length)

/-- Original chunk order on embedded chunks: document index, then chunk index. -/
def posLtE (a b : EmbChunk) : Prop :=
  a.doc_index < b.doc_index ∨ (a.doc_index = b.doc_index ∧ a.chunk_index < b.chunk_index)

instance : DecidableRel posLtE := fun a b =>
  inferInstanceAs (Decidable (a.doc_index < b.doc_index ∨
    (a.doc_index = b.doc_index ∧ a.chunk_index < b.chunk_index)))

/-- Original chunk order carried over to scored chunks. -/
def posLtS (a b : ScoredChunk) : Prop :=
  a.doc_index < b.doc_index ∨ (a.doc_index = b.doc_index ∧ a.chunk_index < b.chunk_index)

/-- Deterministic ranking order: strictly higher score first, ties resolved by
the original chunk order. -/
def rankOrder (a b : ScoredChunk) : Prop :=
  b.score < a.score ∨ (a.score = b.score ∧ posLtS a b)

/-! ## Decision synthesizer -/

/-- One entry of a `justification` array found in the generative output.  Every
field may be absent (`none`); a present-but-empty string is `some ""`-like and
is falsy for the `||` defaulting below. -/
structure JEntry where
  clause : Option (List Char)
  source : Option String
  chunk_index : Option Int
  similarity : Option ℝ

/-- Shape of the `justification` field of the parsed generative output, as the
handler inspects it with `Array.isArray`. -/
inductive JustField where
  | arr (entries : List JEntry)
  | notArray

/-- The parsed generative output (`parsed`), after `JSON.parse` succeeded on
the first brace-delimited block: the handler reads `decision`, `amount`,
`justification` and `explain_prompt` from it, none of which is validated
beyond the `justification` repair. -/
structure ParsedDoc where
  decision : Option String
  amount : Option ℝ
  justification : JustField
  explain : Option String

/-- One entry of the `justification` array of the final response. -/
structure JustOut where
  clause : List Char
  source : String
  chunk_index : Option Int
  similarity : Option ℝ

/-- The `parsed` object the handler finally returns as `results`. -/
structure DecisionOut where
  decision : Option String
  amount : Option ℝ
  justification : List JustOut
  explain : Option String

/-- JS `x || d` on an optional string: `d` when `x` is absent or empty. -/
def jsOrStr (x : Option String) (d : String) : String :=
  match x with
  | none => d
  | some s => if s = "" then d else s

/-- JS `x || d` on an optional character list. -/
def jsOrChars (x : Option (List Char)) (d : List Char) : List Char :=
  match x with
  | none => d
  | some s => if s = [] then d else s

/-- Justification entry synthesised directly from a top-K chunk
(`{ clause: t.text.slice(0,300), source: t.source, chunk_index: t.chunk_index,
similarity: t.score }`). -/
def justFromChunk (t : ScoredChunk) : JustOut :=
  { clause := t.text.take 300, source := t.source,
    chunk_index := some (t.chunk_index : Int), similarity := some t.score }

/-- The fully synthesised justification array `top.map(t => ...)`. -/
def mkJustFromTop (top : List ScoredChunk) : List JustOut :=
  top.map justFromChunk

/-- Repair of one generative justification entry against its positional top-K
chunk `top[i]`: `clause: j.clause || topMatch.text?.slice(0,300) || ""`,
`source: j.source || topMatch.source || ""`,
`chunk_index: j.chunk_index ?? topMatch.chunk_index ?? null`,
`similarity: j.similarity ?? topMatch.score ?? null`.  (The trailing `|| ""`
collapses into the default because the defaults are themselves `""` exactly
when the chunk text or source is empty.) -/
def repairEntryWith (j : JEntry) (t : ScoredChunk) : JustOut :=
  { clause := jsOrChars j.clause (t.text.take 300),
    source := jsOrStr j.source t.source,
    chunk_index := j.chunk_index <|> some (t.chunk_index : Int),
    similarity := j.similarity <|> some t.score }

/-- Repair of one entry whose index is beyond the top-K list
(`const topMatch = top[i] || {}` with every field `undefined`). -/
def repairEntryBeyond (j : JEntry) : JustOut :=
  { clause := jsOrChars j.clause [],
    source := jsOrStr j.source "",
    chunk_index := j.chunk_index,
    similarity := j.similarity }

/-- The `parsed.justification.map((j, i) => ...)` repair loop: entry `i` is
paired with `top[i]`; the index walks both lists in lockstep. -/
def repairJust : List JEntry → List ScoredChunk → List JustOut
  | [], _ => []
  | j :: js, t :: ts => repairEntryWith j t :: repairJust js ts
  | j :: js, [] => repairEntryBeyond j :: repairJust js []

/-- Fixed rejection-signal keyword list of the heuristic fallback. -/
def rejectKeywords : List (List Char) :=
  ["not covered".data, "exclusion".data, "deductible not".data, "pre-existing".data,
    "waiting period".data, "not eligible".data, "excludes".data]

/-- Fixed approval-signal keyword list of the heuristic fallback. -/
def approveKeywords : List (List Char) :=
  ["covered".data, "shall be paid".data, "payable".data, "benefit".data,
    "eligible".data, "entitled".data]

/-- The joined text the heuristic scans:
`top.map(t => t.text.toLowerCase()).join(" ")`. -/
def heuristicJoined (top : List ScoredChunk) : List Char :=
  List.intercalate [' '] (top.map fun t => lowerStr t.text)

/-- The `foundReject` flag, `rejectKeywords.some(k => joined.includes(k))`. -/
def foundRejectB (s : List Char) : Bool :=
  rejectKeywords.any fun k => containsSub k s

/-- The `foundApprove` flag, `approveKeywords.some(k => joined.includes(k))`. -/
def foundApproveB (s : List Char) : Bool :=
  approveKeywords.any fun k => containsSub k s

/-- The fallback decision ternary: rejection signal without approval signal
rejects, approval signal without rejection signal approves, anything else is
`"maybe"`. -/
def heuristicDecisionCode (s : List Char) : String :=
  if foundRejectB s && !foundApproveB s then "rejected"
  else if foundApproveB s && !foundRejectB s then "approved"
  else "maybe"

/-- The same heuristic stated the way the spec reads, over occurrence
propositions instead of the source's boolean flags. -/
def keywordHeuristic (s : List Char) : String :=
  if (∃ k ∈ rejectKeywords, occursIn k s) ∧ ¬(∃ k ∈ approveKeywords, occursIn k s) then
    "rejected"
  else if (∃ k ∈ approveKeywords, occursIn k s) ∧ ¬(∃ k ∈ rejectKeywords, occursIn k s) then
    "approved"
  else "maybe"

/-- The output validation/repair stage of the handler (steps after the chat
call).  `parsed = none` models the path where no brace-delimited block was
found or `JSON.parse` threw, leaving `parsed` null: the heuristic fallback
object is built.  `parsed = some p` models a successful parse: `decision`,
`amount` and `explain_prompt` pass through and only `justification` is
repaired (re-paired positionally when it is an array, otherwise rebuilt from
the top-K chunks). -/
def synthesize (llmText : String) (parsed : Option ParsedDoc) (top : List ScoredChunk) :
    DecisionOut :=
  match parsed with
  | none =>
    { decision := some (heuristicDecisionCode (heuristicJoined top)),
      amount := none,
      justification := mkJustFromTop top,
      explain := some (if llmText = "" then
        "LLM did not return parsable JSON; fallback heuristic used." else llmText) }
  | some p =>
    { decision := p.decision,
      amount := p.amount,
      justification :=
        match p.justification with
        | JustField.arr js => repairJust js top
        | JustField.notArray => mkJustFromTop top,
      explain := p.explain }

/-! ## The duplicate simplified handlers -/

/-- Response of the simplified handlers (`src/pages/api/webhook.js` and the
Next.js route): either the parsed completion body, or the `catch` branch's
`{ error: message }` object. -/
inductive SimpleResp (J : Type) where
  | ok (body : J)
  | err (message : String)
deriving DecidableEq

/-- The simplified handler after the chat call: it runs
`JSON.parse(completion.choices[0].message.content)` and returns the parsed
value, while any exception lands in the `catch` branch and produces the error
response.  The argument is the outcome of that `JSON.parse` call. -/
def simpleHandler {J : Type} (parseResult : Except String J) : SimpleResp J :=
  match parseResult with
  | Except.ok v => SimpleResp.ok v
  | Except.error m => SimpleResp.err m

/-! ## Chunker lemmas -/

theorem chunkTextFuel_total (text : List Char) (chunkSize overlap : Nat)
    (hov : overlap < chunkSize) :
    ∀ (fuel i : Nat), text.length - i < fuel →
      ∃ l, chunkTextFuel fuel text chunkSize overlap i = some l := by
  intro fuel
  induction fuel with
  | zero => intro i h; omega
  | succ f ih =>
    intro i h
    by_cases hi : i < text.length
    · obtain ⟨l, hl⟩ := ih (i + (chunkSize - overlap)) (by omega)
      exact ⟨(text.drop i).take chunkSize :: l, by simp [chunkTextFuel, hi, hl]⟩
    · exact ⟨[], by simp [chunkTextFuel, hi]⟩

theorem chunkText_total (text : List Char) (chunkSize overlap : Nat)
    (hov : overlap < chunkSize) :
    ∃ l, chunkText text chunkSize overlap = some l :=
  chunkTextFuel_total text chunkSize overlap hov (text.length + 1) 0 (by omega)

theorem chunkTextFuel_get :
    ∀ (fuel : Nat) (text : List Char) (chunkSize overlap i : Nat) (l : List (List Char)),
      chunkTextFuel fuel text chunkSize overlap i = some l →
      ∀ (j : Nat) (hj : j < l.length),
        l.get ⟨j, hj⟩ = (text.drop (i + j * (chunkSize - overlap))).take chunkSize ∧
          i + j * (chunkSize - overlap) < text.length := by
  intro fuel
  induction fuel with
  | zero => intro text cs ov i l h; simp [chunkTextFuel] at h
  | succ f ih =>
    intro text cs ov i l h j hj
    simp only [chunkTextFuel] at h
    by_cases hi : i < text.length
    · rw [if_pos hi] at h
      cases hrec : chunkTextFuel f text cs ov (i + (cs - ov)) with
      | none => rw [hrec] at h; exact absurd h (by simp)
      | some rest =>
        rw [hrec] at h
        simp only [Option.some.injEq] at h
        subst h
        cases j with
        | zero => exact ⟨by simp, by simpa using hi⟩
        | succ j' =>
          have hj' : j' < rest.length := by simpa using hj
          have hrest := ih text cs ov (i + (cs - ov)) rest hrec j' hj'
          have harith : i + (j' + 1) * (cs - ov) = i + (cs - ov) + j' * (cs - ov) := by ring
          constructor
          · rw [harith]
            simpa using hrest.1
          · rw [harith]
            exact hrest.2
    · rw [if_neg hi] at h
      simp only [Option.some.injEq] at h
      subst h
      simp at hj

theorem chunkText_get (text : List Char) (chunkSize overlap : Nat) (l : List (List Char))
    (h : chunkText text chunkSize overlap = some l) (j : Nat) (hj : j < l.length) :
    l.get ⟨j, hj⟩ = (text.drop (j * (chunkSize - overlap))).take chunkSize ∧
      j * (chunkSize - overlap) < text.length := by
  have hh := chunkTextFuel_get (text.length + 1) text chunkSize overlap 0 l h j hj
  simpa using hh

/-! ## Cosine lemmas -/

theorem dotJS_append_zeros (a : List ℝ) :
    ∀ (b : List ℝ) (n : Nat), dotJS a (b ++ List.replicate n 0) = dotJS a b := by
  induction a with
  | nil => intro b n; rfl
  | cons x xs ih =>
    intro b n
    cases b with
    | nil =>
      cases n with
      | zero => rfl
      | succ m =>
        have h := ih [] m
        simp only [List.nil_append] at h
        simp [List.replicate_succ, dotJS, h]
    | cons y ys => simp only [List.cons_append, dotJS, List.append_eq, ih ys n]

theorem sumSq_replicate_zero : ∀ n : Nat, sumSq (List.replicate n 0) = 0 := by
  intro n
  induction n with
  | zero => rfl
  | succ m ih => simp [List.replicate_succ, sumSq, ih]

theorem sumSq_append_zeros (b : List ℝ) (n : Nat) :
    sumSq (b ++ List.replicate n 0) = sumSq b := by
  induction b with
  | nil => simp [sumSq_replicate_zero n, sumSq]
  | cons y ys ih => simp [sumSq, ih]

/-! ## Ranker lemmas: the stable descending sort orders ties by original position -/

theorem orderedInsert_rankOrder (a : ScoredChunk) :
    ∀ (l : List ScoredChunk), l.Pairwise rankOrder → (∀ b ∈ l, posLtS a b) →
      (List.orderedInsert scoreGe a l).Pairwise rankOrder := by
  intro l
  induction l with
  | nil => intro _ _; simp [List.orderedInsert, rankOrder]
  | cons b l' ih =>
    intro hp hmem
    rw [List.orderedInsert]
    by_cases hab : scoreGe a b
    · rw [if_pos hab]
      refine List.Pairwise.cons ?_ hp
      intro c hc
      rcases List.mem_cons.mp hc with rfl | hc'
      · rcases lt_or_eq_of_le hab with hlt | heq
        · exact Or.inl hlt
        · exact Or.inr ⟨heq.symm, hmem c (by simp)⟩
      · have hbc : rankOrder b c := (List.pairwise_cons.mp hp).1 c hc'
        rcases hbc with hlt | ⟨heq, _⟩
        · exact Or.inl (lt_of_lt_of_le hlt hab)
        · rcases lt_or_eq_of_le hab with hlt2 | heq2
          · exact Or.inl (by rw [← heq]; exact hlt2)
          · exact Or.inr ⟨by rw [← heq2]; exact heq,
              hmem c (List.mem_cons_of_mem b hc')⟩
    · rw [if_neg hab]
      have hp' := List.pairwise_cons.mp hp
      refine List.Pairwise.cons ?_
        (ih hp'.2 (fun c hc => hmem c (List.mem_cons_of_mem b hc)))
      intro c hc
      rcases (List.mem_orderedInsert scoreGe).mp hc with rfl | hc'
      · exact Or.inl (not_le.mp hab)
      · exact hp'.1 c hc'

theorem insertionSort_rankOrder :
    ∀ (l : List ScoredChunk), l.Pairwise posLtS → (sortScoredDesc l).Pairwise rankOrder := by
  intro l
  induction l with
  | nil => intro _; simp [sortScoredDesc, List.insertionSort]
  | cons a l' ih =>
    intro hp
    have hp' := List.pairwise_cons.mp hp
    rw [sortScoredDesc, List.insertionSort]
    exact orderedInsert_rankOrder a _ (ih hp'.2)
      (fun b hb => hp'.1 b ((List.perm_insertionSort scoreGe l').mem_iff.mp hb))

/-! ## Heuristic and repair lemmas -/

theorem any_containsSub_iff (ks : List (List Char)) (s : List Char) :
    (ks.any fun k => containsSub k s) = true ↔ ∃ k ∈ ks, occursIn k s := by
  rw [List.any_eq_true]
  constructor
  · rintro ⟨k, hk, h⟩; exact ⟨k, hk, (containsSub_iff k s).mp h⟩
  · rintro ⟨k, hk, h⟩; exact ⟨k, hk, (containsSub_iff k s).mpr h⟩

theorem heuristicDecisionCode_eq_spec (s : List Char) :
    heuristicDecisionCode s = keywordHeuristic s := by
  rw [heuristicDecisionCode, keywordHeuristic]
  by_cases hR : ∃ k ∈ rejectKeywords, occursIn k s
  · have hR' : foundRejectB s = true := by
      rw [foundRejectB, any_containsSub_iff]; exact hR
    by_cases hA : ∃ k ∈ approveKeywords, occursIn k s
    · have hA' : foundApproveB s = true := by
        rw [foundApproveB, any_containsSub_iff]; exact hA
      simp [hR', hA', hR, hA]
    · have hA' : foundApproveB s = false := by
        cases hfa : foundApproveB s
        · rfl
        · rw [foundApproveB, any_containsSub_iff] at hfa
          exact absurd hfa hA
      simp [hR', hA', hR, hA]
  · have hR' : foundRejectB s = false := by
      cases hfr : foundRejectB s
      · rfl
      · rw [foundRejectB, any_containsSub_iff] at hfr
        exact absurd hfr hR
    by_cases hA : ∃ k ∈ approveKeywords, occursIn k s
    · have hA' : foundApproveB s = true := by
        rw [foundApproveB, any_containsSub_iff]; exact hA
      simp [hR', hA', hR, hA]
    · have hA' : foundApproveB s = false := by
        cases hfa : foundApproveB s
        · rfl
        · rw [foundApproveB, any_containsSub_iff] at hfa
          exact absurd hfa hA
      simp [hR', hA', hR, hA]

theorem repairJust_getElem_lockstep :
    ∀ (js : List JEntry) (top : List ScoredChunk) (i : Nat)
      (hi : i < js.length) (ht : i < top.length),
      (repairJust js top)[i]? =
        some (repairEntryWith (js.get ⟨i, hi⟩) (top.get ⟨i, ht⟩)) := by
  intro js
  induction js with
  | nil => intro top i hi ht; simp at hi
  | cons j js' ih =>
    intro top i hi ht
    cases top with
    | nil => simp at ht
    | cons t ts =>
      cases i with
      | zero => simp [repairJust]
      | succ i' =>
        have hi' : i' < js'.length := by simpa using hi
        have ht' : i' < ts.length := by simpa using ht
        simpa [repairJust] using ih ts i' hi' ht'

/-! ## Concrete inputs used by counterexamples and witnesses -/

/-- Two top-K chunks whose texts split a rejection keyword at a chunk
boundary. -/
def ceTopSplit : List ScoredChunk :=
  [⟨"not".data, "d1", 0, 0, [], 0⟩, ⟨"covered".data, "d2", 1, 0, [], 0⟩]

/-- Two generative justification entries with every field missing. -/
def ceJsTwo : List JEntry := [⟨none, none, none, none⟩, ⟨none, none, none, none⟩]

/-- A single top-K chunk with full provenance. -/
def ceTopOne : List ScoredChunk := [⟨"policy text".data, "doc.pdf", 0, 0, [], 0⟩]

/-- One generative justification entry with every field missing. -/
def wJsOne : List JEntry := [⟨none, none, none, none⟩]

/-- Two embedded chunks of one document, in original order, with identical
embeddings (hence tied scores). -/
def wEmbChunks : List EmbChunk :=
  [⟨"alpha".data, "doc", 0, 0, [1]⟩, ⟨"beta".data, "doc", 0, 1, [1]⟩]

/-- A parsed generative output whose decision is outside the enum. -/
def ceParsedBad : ParsedDoc := ⟨some "yes", none, JustField.notArray, none⟩

/-! ## Claim theorems -/

/-- C1 (code bug): a request whose only document yields no extractable text
still produces one chunk, because the handler appends a newline before
windowing (`(doc.text || "") + "\n"`), so the chunk list is nonempty, the
no-content gate `chunks.length === 0` does not fire, and the embedding
provider is called with the single empty chunk text instead of the request
being rejected with the no-content error. -/
theorem empty_docs_pass_noContent_gate :
    assembleChunks [⟨[], "doc1"⟩] = [⟨[], "doc1", 0, 0⟩] ∧
    (∀ c ∈ assembleChunks [⟨[], "doc1"⟩], c.text = []) ∧
    noContentCheck (assembleChunks [⟨[], "doc1"⟩]) = Except.ok [[]] :=
  ⟨by decide, by decide, rfl⟩

/-- Counterexample for C2 as stated: on the top-K chunks with texts `"not"`
and `"covered"`, the synthesizer's fallback decision is `"maybe"` (it joins
the texts with a space, producing `"not covered"`, which carries both a
rejection and an approval signal), while the keyword heuristic applied to the
plain, separator-free concatenation `"notcovered"` yields `"approved"`. -/
theorem synthesize_concat_heuristic_ce :
    (synthesize "" none ceTopSplit).decision = some "maybe" ∧
    keywordHeuristic (List.flatten (ceTopSplit.map fun t => lowerStr t.text)) = "approved" ∧
    ("maybe" : String) ≠ "approved" :=
  ⟨by decide, by decide, by decide⟩

/-- C2 (amended): for every generative response in which no parsable JSON
object is found, the synthesizer's decision equals the keyword heuristic
applied to the lowercased top-K chunk texts joined with a single space
between consecutive chunks, and the amount is null in this path. -/
theorem synthesize_fallback_matches_heuristic (llmText : String) (top : List ScoredChunk) :
    (synthesize llmText none top).decision =
      some (keywordHeuristic (List.intercalate [' '] (top.map fun t => lowerStr t.text))) ∧
    (synthesize llmText none top).amount = none := by
  constructor
  · show some (heuristicDecisionCode (heuristicJoined top)) = _
    rw [heuristicDecisionCode_eq_spec, heuristicJoined]
  · rfl

/-- Counterexample for C3 as stated: with two generative justification entries
but only one top-K chunk, the repaired second entry carries the empty source
`""`, which is the source of no chunk of the top-K set — the entry dangles. -/
theorem repairJust_dangling_ce :
    (repairJust ceJsTwo ceTopOne).map (fun e => e.source) = ["doc.pdf", ""] ∧
    ∀ t ∈ ceTopOne, t.source ≠ "" :=
  ⟨by decide, by decide⟩

/-- C3 (amended): when the parsed justification is an array, every entry whose
index lies within the top-K set is paired positionally with that chunk, and
every missing (absent or empty) `source`/`chunk_index`/`similarity`/`clause`
field is backfilled from it; entries at indices beyond the top-K set instead
receive empty or null placeholders and may be left without a source. -/
theorem repairJust_backfill_within_topk (js : List JEntry) (top : List ScoredChunk)
    (i : Nat) (hi : i < js.length) (ht : i < top.length) :
    ∃ e, (repairJust js top)[i]? = some e ∧
      ((js.get ⟨i, hi⟩).source = none ∨ (js.get ⟨i, hi⟩).source = some "" →
        e.source = (top.get ⟨i, ht⟩).source) ∧
      ((js.get ⟨i, hi⟩).chunk_index = none →
        e.chunk_index = some ((top.get ⟨i, ht⟩).chunk_index : Int)) ∧
      ((js.get ⟨i, hi⟩).similarity = none →
        e.similarity = some (top.get ⟨i, ht⟩).score) ∧
      ((js.get ⟨i, hi⟩).clause = none ∨ (js.get ⟨i, hi⟩).clause = some [] →
        e.clause = (top.get ⟨i, ht⟩).text.take 300) := by
  refine ⟨repairEntryWith (js.get ⟨i, hi⟩) (top.get ⟨i, ht⟩),
    repairJust_getElem_lockstep js top i hi ht, ?_, ?_, ?_, ?_⟩
  · rintro (h | h) <;> simp only [List.get_eq_getElem] at h <;>
      simp [repairEntryWith, jsOrStr, h]
  · intro h
    simp only [List.get_eq_getElem] at h
    simp [repairEntryWith, h, Option.none_orElse]
  · intro h
    simp only [List.get_eq_getElem] at h
    simp [repairEntryWith, h, Option.none_orElse]
  · rintro (h | h) <;> simp only [List.get_eq_getElem] at h <;>
      simp [repairEntryWith, jsOrChars, h]

/-- Witness for C3: one generative entry with every field missing, one top-K
chunk; the theorem backfills all four fields from the chunk. -/
theorem repairJust_backfill_witness :
    0 < wJsOne.length ∧ 0 < ceTopOne.length ∧
    (∃ e, (repairJust wJsOne ceTopOne)[0]? = some e ∧
      ((wJsOne.get ⟨0, by decide⟩).source = none ∨
          (wJsOne.get ⟨0, by decide⟩).source = some "" →
        e.source = (ceTopOne.get ⟨0, by decide⟩).source) ∧
      ((wJsOne.get ⟨0, by decide⟩).chunk_index = none →
        e.chunk_index = some ((ceTopOne.get ⟨0, by decide⟩).chunk_index : Int)) ∧
      ((wJsOne.get ⟨0, by decide⟩).similarity = none →
        e.similarity = some (ceTopOne.get ⟨0, by decide⟩).score) ∧
      ((wJsOne.get ⟨0, by decide⟩).clause = none ∨
          (wJsOne.get ⟨0, by decide⟩).clause = some [] →
        e.clause = (ceTopOne.get ⟨0, by decide⟩).text.take 300)) :=
  ⟨by decide, by decide,
    repairJust_backfill_within_topk wJsOne ceTopOne 0 (by decide) (by decide)⟩

/-- C4 (confirmed): for every chunk set listed in its original document order
and every query vector, the top-K selection has exactly
`min(configuredK, chunkCount)` elements with `configuredK = 6`, is sorted
non-increasing by cosine score, and breaks score ties by the chunks' original
`(doc_index, chunk_index)` order, making the selection deterministic. -/
theorem rankTopK_spec (q : List ℝ) (chunks : List EmbChunk)
    (horder : chunks.Pairwise posLtE) :
    configuredK = 6 ∧
    (rankTopK q chunks).length = min configuredK chunks.length ∧
    List.Sorted scoreGe (rankTopK q chunks) ∧
    (rankTopK q chunks).Pairwise rankOrder := by
  have hscored : (scoreChunks q chunks).Pairwise posLtS := by
    rw [scoreChunks, List.pairwise_map]
    exact horder
  have hsorted := insertionSort_rankOrder _ hscored
  have hsub : (rankTopK q chunks).Sublist (sortScoredDesc (scoreChunks q chunks)) :=
    List.take_sublist _ _
  have htake : (rankTopK q chunks).Pairwise rankOrder :=
    List.Pairwise.sublist hsub hsorted
  refine ⟨rfl, ?_, ?_, htake⟩
  · rw [rankTopK, List.length_take, sortScoredDesc, List.length_insertionSort,
      scoreChunks, List.length_map]
    omega
  · exact htake.imp (fun h => h.elim (fun hlt => le_of_lt hlt) (fun he => le_of_eq he.1.symm))

/-- Witness for C4: two chunks of one document with identical embeddings (a
score tie) in original order. -/
theorem rankTopK_spec_witness :
    wEmbChunks.Pairwise posLtE ∧
    (configuredK = 6 ∧
      (rankTopK [1] wEmbChunks).length = min configuredK wEmbChunks.length ∧
      List.Sorted scoreGe (rankTopK [1] wEmbChunks) ∧
      (rankTopK [1] wEmbChunks).Pairwise rankOrder) :=
  ⟨by decide, rankTopK_spec [1] wEmbChunks (by decide)⟩

/-- Counterexample for C5 as stated: the parameters `chunkSize = 4`,
`overlap = 3` are valid in the spec's sense (`overlap < windowSize`), yet on
the text `"abcdef"` the chunk `"def"` is followed by the chunk `"ef"` — which
is not the final chunk (`"f"` is) — and the last `3` characters of `"def"`
differ from the first `3` characters of `"ef"`. -/
theorem chunkText_overlap_ce :
    (3 : Nat) < 4 ∧
    chunkText "abcdef".data 4 3 =
      some ["abcd".data, "bcde".data, "cdef".data, "def".data, "ef".data, "f".data] ∧
    ("def".data).drop ("def".data.length - 3) ≠ ("ef".data).take 3 :=
  ⟨by decide, by decide, by decide⟩

/-- C5 (amended): chunking is deterministic (a pure function of the text and
the window parameters), and under the strengthened precondition
`2 * overlap ≤ chunkSize` — satisfied by both configurations the source uses,
`(900, 150)` at the call site and the defaults `(800, 100)` — the last
`overlap` characters of chunk `j` equal the first `overlap` characters of
chunk `j + 1` for every consecutive pair whose second member is not the final
chunk. -/
theorem chunkText_overlap_spec (text : List Char) (chunkSize overlap : Nat)
    (hcs : 0 < chunkSize) (hov2 : 2 * overlap ≤ chunkSize) :
    ∃ l, chunkText text chunkSize overlap = some l ∧
      ∀ (j : Nat), j + 2 < l.length →
        ∀ (hj : j < l.length) (hj1 : j + 1 < l.length),
          (l.get ⟨j, hj⟩).drop ((l.get ⟨j, hj⟩).length - overlap) =
            (l.get ⟨j + 1, hj1⟩).take overlap := by
  have hov : overlap < chunkSize := by omega
  obtain ⟨l, hl⟩ := chunkText_total text chunkSize overlap hov
  refine ⟨l, hl, ?_⟩
  intro j hj2 hj hj1
  obtain ⟨hget0, _⟩ := chunkText_get text chunkSize overlap l hl j hj
  obtain ⟨hget1, _⟩ := chunkText_get text chunkSize overlap l hl (j + 1) hj1
  obtain ⟨_, hlt2⟩ := chunkText_get text chunkSize overlap l hl (j + 2) hj2
  have harith2 : (j + 2) * (chunkSize - overlap) =
      j * (chunkSize - overlap) + 2 * (chunkSize - overlap) := by ring
  rw [harith2] at hlt2
  have hfull : j * (chunkSize - overlap) + chunkSize ≤ text.length := by omega
  rw [hget0, hget1]
  have hlen0 : ((text.drop (j * (chunkSize - overlap))).take chunkSize).length = chunkSize := by
    simp only [List.length_take, List.length_drop]
    omega
  rw [hlen0, List.drop_take, List.drop_drop]
  rw [List.take_take]
  have e1 : chunkSize - (chunkSize - overlap) = overlap := by omega
  have e2 : overlap ⊓ chunkSize = overlap := min_eq_left (by omega)
  have e3 : j * (chunkSize - overlap) + (chunkSize - overlap) =
      (j + 1) * (chunkSize - overlap) := by ring
  rw [e1, e2, e3]

/-- Witness for C5: parameters `(2, 1)` satisfy the hypotheses and the window
property holds on `"ab"`. -/
theorem chunkText_overlap_witness :
    0 < 2 ∧ 2 * 1 ≤ 2 ∧
    (∃ l, chunkText "ab".data 2 1 = some l ∧
      ∀ (j : Nat), j + 2 < l.length →
        ∀ (hj : j < l.length) (hj1 : j + 1 < l.length),
          (l.get ⟨j, hj⟩).drop ((l.get ⟨j, hj⟩).length - 1) =
            (l.get ⟨j + 1, hj1⟩).take 1) :=
  ⟨by decide, by decide, chunkText_overlap_spec "ab".data 2 1 (by decide) (by decide)⟩

/-- C6 (confirmed): the similarity score equals the dot product divided by the
product of the two magnitudes (over the reals this holds even in the guarded
case, where the dot product is divided by zero), and it is exactly `0` when
either magnitude is `0`; `cosine` is a total function, so no division error
can be raised. -/
theorem cosine_formula_and_zero_guard (a b : List ℝ) :
    cosine a b = dotJS a b / (magJS a * magJS b) ∧
    ((magJS a = 0 ∨ magJS b = 0) → cosine a b = 0) := by
  constructor
  · by_cases h : magJS a = 0 ∨ magJS b = 0
    · rw [cosine, if_pos h]
      rcases h with h | h
      · rw [h, zero_mul, div_zero]
      · rw [h, mul_zero, div_zero]
    · rw [cosine, if_neg h]
  · intro h
    rw [cosine, if_pos h]

/-- Witness for C6: the zero vector `[0]` has magnitude `0` and the guarded
similarity against `[1]` is `0`. -/
theorem cosine_zero_guard_witness :
    (magJS [0] = 0 ∨ magJS [(1 : ℝ)] = 0) ∧ cosine [0] [1] = 0 :=
  ⟨Or.inl (by simp [magJS, sumSq]),
    (cosine_formula_and_zero_guard [0] [1]).2 (Or.inl (by simp [magJS, sumSq]))⟩

/-- C7 (confirmed): the only chunking configuration the handler ever uses is
the hard-coded `(900, 150)`, which satisfies `overlap < windowSize` (no
invalid configuration can arise, so none needs rejecting), and under that
precondition the chunker terminates — returns a result within the
`text.length + 1` fuel bound — for every input text. -/
theorem chunk_config_valid_and_terminates :
    handlerOverlap < handlerWindowSize ∧
    ∀ (chunkSize overlap : Nat), overlap < chunkSize →
      ∀ (text : List Char), ∃ l, chunkText text chunkSize overlap = some l :=
  ⟨by decide, fun chunkSize overlap h text => chunkText_total text chunkSize overlap h⟩

/-- Witness for C7: the valid parameters `(2, 1)` on the text `"abc"`. -/
theorem chunk_config_terminates_witness :
    (1 : Nat) < 2 ∧ ∃ l, chunkText ['a', 'b', 'c'] 2 1 = some l :=
  ⟨by decide, chunk_config_valid_and_terminates.2 2 1 (by decide) ['a', 'b', 'c']⟩

/-- Counterexample for C8 as stated: a parsed generative output with
`decision: "yes"` passes straight through to the response, and `"yes"` is
none of the four enum values. -/
theorem decision_passthrough_ce :
    (synthesize "raw" (some ceParsedBad) []).decision = some "yes" ∧
    (some "yes" : Option String) ∉
      ([some "approved", some "rejected", some "maybe", some "manual_review"] :
        List (Option String)) :=
  ⟨rfl, by decide⟩

/-- C8 (amended): the decision is one of the enum values on the heuristic
fallback path (it is always `approved`, `rejected` or `maybe` there), while on
the parse-success path the decision field of the parsed generative output is
passed through unvalidated, whatever it is. -/
theorem decision_enum_fallback_passthrough (llmText : String) (top : List ScoredChunk) :
    ((synthesize llmText none top).decision ∈
      ([some "approved", some "rejected", some "maybe"] : List (Option String))) ∧
    ∀ (p : ParsedDoc), (synthesize llmText (some p) top).decision = p.decision := by
  refine ⟨?_, fun p => rfl⟩
  show some (heuristicDecisionCode (heuristicJoined top)) ∈ _
  rw [heuristicDecisionCode]
  split
  · decide
  · split
    · decide
    · decide

/-- C9 (confirmed): `cosine` is a total function on any two lists, and a
second vector padded with zeros — i.e. one whose missing entries are read as
`0` — yields exactly the same score, so a dimensionality mismatch is absorbed
rather than raised as an error. -/
theorem cosine_total_pad_zeros (a b : List ℝ) (n : Nat) :
    cosine a (b ++ List.replicate n 0) = cosine a b := by
  have hm : magJS (b ++ List.replicate n 0) = magJS b := by
    rw [magJS, magJS, sumSq_append_zeros]
  rw [cosine, cosine, hm, dotJS_append_zeros]

/-- C10 (confirmed): in the duplicate simplified handler a generative response
whose content fails `JSON.parse` makes the whole request answer with the error
object from the catch branch, whereas the main pipeline's synthesizer always
produces a decision (never an error) when no JSON can be parsed. -/
theorem simple_handler_errors_on_bad_json :
    (∀ (J : Type) (m : String),
      simpleHandler (Except.error m : Except String J) = SimpleResp.err m) ∧
    ∀ (llmText : String) (top : List ScoredChunk),
      ∃ d, (synthesize llmText none top).decision = some d :=
  ⟨fun _ _ => rfl, fun _ top => ⟨heuristicDecisionCode (heuristicJoined top), rfl⟩⟩
